import Mathlib

/-!
Shallow embedding of the concurrent Game-of-Life kernel in src/main.cpp:
the ThreadPool (lines 21-75) and the LifeAccel engine (lines 80-150).

Cell buffers hold uint8_t values; they are embedded as total functions
Nat -> Nat -> Nat, with writes restricted to the in-range indices
(the C++ vectors have exactly rows * cols entries). Machine integers are
embedded as Nat / Int; all index arithmetic in the source stays far below
any overflow boundary, so no modular reduction is needed. The worker
threads are embedded as an interleaving transition system on the pool
counters; the pseudorandom source of randomize is a per-cell sample
function with values in [0,1), standing for uniform_real_distribution.
-/

/-- A unit of work handed to the pool. The engine's jobs are opaque
closures (std::function with no arguments and no result), so jobs are
embedded as opaque identifiers. -/
abbrev Job := Nat

/-- State of the ThreadPool object (src/main.cpp lines 47-53): the spawned
worker threads, the FIFO task queue, the activeWorkers counter and the
stop flag. -/
structure ThreadPool where
  workers : Nat
  tasks : List Job
  activeWorkers : Nat
  stop : Bool

/-- The ThreadPool constructor (src/main.cpp lines 23-26): initializes
stop to false and spawns exactly n worker threads, with no validation of
n whatsoever; the queue starts empty and no worker is active. -/
def ThreadPool.mkPool (n : Nat) : ThreadPool :=
  { workers := n, tasks := [], activeWorkers := 0, stop := false }

/-- ThreadPool::workerLoop (src/main.cpp lines 55-74) from the moment the
destructor has set the stop flag (line 30): the wait predicate
`stop || !tasks.empty()` is now always true, so each iteration pops and
runs the front job, and the worker returns only when the queue is empty
(line 61: `if (stop && tasks.empty()) return;`). The result is the list
of jobs the worker executes, in order, before terminating. -/
def workerLoopAfterStop : List Job → List Job
  | [] => []
  | j :: q => j :: workerLoopAfterStop q

/-- Pool-state counters for the interleaving model of the worker threads:
how many tasks were submitted by the driver so far, how many sit in the
queue, how many are mid-execution (activeWorkers), and how many have
completed (for the quiescence test, each job increments a shared counter,
so counter = number of completed jobs). -/
structure PoolSt where
  submitted : Nat
  queued : Nat
  active : Nat
  counter : Nat

/-- One atomic action of the pool, under sequentially consistent
interleaving. `submit` is ThreadPool::enqueue (lines 35-41, push under
qMutex). `start` is the pop + ++activeWorkers block of workerLoop (lines
59-65, one critical section under qMutex). `finish` is the completion of
job() followed by --activeWorkers (lines 66-72); the job's counter
increment happens before the decrement, so the two are merged into one
action. -/
inductive PoolStep : PoolSt → PoolSt → Prop where
  | submit (s q a c : Nat) : PoolStep ⟨s, q, a, c⟩ ⟨s + 1, q + 1, a, c⟩
  | start (s q a c : Nat) : PoolStep ⟨s, q + 1, a, c⟩ ⟨s, q, a + 1, c⟩
  | finish (s q a c : Nat) : PoolStep ⟨s, q, a + 1, c⟩ ⟨s, q, a, c + 1⟩

/-- The pool state right after construction: nothing submitted, queued,
active or completed. -/
def poolInit : PoolSt := ⟨0, 0, 0, 0⟩

/-- Reachability by any finite interleaving of pool actions. -/
def poolReachable : PoolSt → PoolSt → Prop := Relation.ReflTransGen PoolStep

/-- The predicate ThreadPool::waitAll blocks on (src/main.cpp line 44):
`tasks.empty() && activeWorkers == 0`. -/
def PoolSt.quiescent (st : PoolSt) : Prop := st.queued = 0 ∧ st.active = 0

/-- A cell buffer: row-major matrix of uint8_t values, embedded as a
total function; only indices below rows and cols are meaningful. -/
abbrev Grid := Nat → Nat → Nat

/-- Every stored cell value is 0 or 1. -/
def cells01 (g : Grid) : Prop := ∀ i j, g i j = 0 ∨ g i j = 1

/-- The 8 Moore-neighborhood offsets, in the order the double loop of
LifeAccel::countNeighbors visits them (dx outer, dy inner, skipping
(0,0); src/main.cpp lines 141-143). -/
def moore : List (Int × Int) :=
  [(-1, -1), (-1, 0), (-1, 1), (0, -1), (0, 1), (1, -1), (1, 0), (1, 1)]

/-- The LifeAccel engine state (src/main.cpp lines 134-137): the
constructor arguments, the derived grid shape, and the two cell buffers.
The pool reference is not part of the data; the chunk tasks it runs are
embedded directly in updateParallel. -/
structure LifeAccel where
  width : Nat
  height : Nat
  cellSize : Nat
  cols : Nat
  rows : Nat
  current : Grid
  next : Grid

/-- The LifeAccel constructor (src/main.cpp lines 82-87): cols = w / c,
rows = h / c, and both buffers allocated all-zero. -/
def LifeAccel.init (w h c : Nat) : LifeAccel :=
  { width := w, height := h, cellSize := c, cols := w / c, rows := h / c,
    current := fun _ _ => 0, next := fun _ _ => 0 }

/-- LifeAccel::randomize (src/main.cpp lines 89-95): for every cell of
current, draw a sample from uniform_real_distribution(0,1) — embedded as
the per-cell function `samples`, whose values lie in [0,1) — and store 1
when sample < fill, else 0. There is no validation of fill. The next
buffer is untouched. -/
def LifeAccel.randomize (L : LifeAccel) (samples : Nat → Nat → ℚ) (fill : ℚ) : LifeAccel :=
  { L with current := fun i j =>
      if i < L.rows ∧ j < L.cols then (if samples i j < fill then 1 else 0)
      else L.current i j }

/-- LifeAccel::countNeighbors (src/main.cpp lines 139-149): sum the
current-buffer values at the 8 Moore offsets, counting an offset only
when its target lies inside [0, rows) x [0, cols) — no wraparound. -/
def LifeAccel.countNeighbors (L : LifeAccel) (x y : Nat) : Nat :=
  (moore.map fun d =>
    if 0 ≤ (x : Int) + d.1 ∧ (x : Int) + d.1 < (L.rows : Int) ∧
       0 ≤ (y : Int) + d.2 ∧ (y : Int) + d.2 < (L.cols : Int)
    then L.current ((x : Int) + d.1).toNat ((y : Int) + d.2).toNat else 0).sum

/-- The Moore offsets of (x, y) that land in bounds on a live cell of the
current buffer: the positions claim C2 says countNeighbors counts. -/
def LifeAccel.liveNeighborOffsets (L : LifeAccel) (x y : Nat) : List (Int × Int) :=
  moore.filter fun d =>
    decide ((0 ≤ (x : Int) + d.1 ∧ (x : Int) + d.1 < (L.rows : Int) ∧
             0 ≤ (y : Int) + d.2 ∧ (y : Int) + d.2 < (L.cols : Int)) ∧
            L.current ((x : Int) + d.1).toNat ((y : Int) + d.2).toNat = 1)

/-- The per-cell body of the chunk task (src/main.cpp lines 106-107):
`int n = countNeighbors(i, j); next[i][j] = current[i][j] ? (n == 2 || n == 3) : (n == 3);`
reading only the current buffer. -/
def LifeAccel.cellNext (L : LifeAccel) (i j : Nat) : Nat :=
  if L.current i j ≠ 0 then
    (if L.countNeighbors i j = 2 ∨ L.countNeighbors i j = 3 then 1 else 0)
  else (if L.countNeighbors i j = 3 then 1 else 0)

/-- Chunk start row for worker t (src/main.cpp line 101):
`int start = t * chunk;` with `chunk = rows / nThreads`. -/
def chunkStart (rows nThreads t : Nat) : Nat := t * (rows / nThreads)

/-- Chunk end row for worker t (src/main.cpp line 102):
`int end = (t == nThreads - 1) ? rows : start + chunk;`. -/
def chunkEnd (rows nThreads t : Nat) : Nat :=
  if t = nThreads - 1 then rows else chunkStart rows nThreads t + rows / nThreads

/-- The row ranges of the nThreads chunk tasks enqueued by
LifeAccel::updateParallel (src/main.cpp lines 100-110), in submission
order. -/
def chunkList (rows nThreads : Nat) : List (Nat × Nat) :=
  (List.range nThreads).map fun t => (chunkStart rows nThreads t, chunkEnd rows nThreads t)

/-- The effect of one chunk task (src/main.cpp lines 103-109) on the next
buffer: for every row i in [p.1, p.2) and every column j in [0, cols), it
overwrites next[i][j] with the new state computed from current. -/
def runChunk (L : LifeAccel) (p : Nat × Nat) (buf : Grid) : Grid :=
  fun i j => if p.1 ≤ i ∧ i < p.2 ∧ j < L.cols then L.cellNext i j else buf i j

/-- The combined effect of a list of chunk tasks on the next buffer. All
tasks read the same untouched current buffer, so any execution order
yields this result; the left fold is the submission order. -/
def runChunks (L : LifeAccel) (ps : List (Nat × Nat)) (buf : Grid) : Grid :=
  ps.foldl (fun acc p => runChunk L p acc) buf

/-- LifeAccel::updateParallel (src/main.cpp lines 97-113): enqueue one
chunk task per worker, waitAll, then `current.swap(next)`. The value
`nThreads` stands for std::thread::hardware_concurrency() at line 98. -/
def LifeAccel.updateParallel (L : LifeAccel) (nThreads : Nat) : LifeAccel :=
  { L with
    current := runChunks L (chunkList L.rows nThreads) L.next,
    next := L.current }

/-- A sequential reference step, following the spec words for step():
compute the next-generation state of every cell of the grid in one pass
reading only from current, then swap the buffers. -/
def LifeAccel.stepSpec (L : LifeAccel) : LifeAccel :=
  { L with
    current := fun i j => if i < L.rows ∧ j < L.cols then L.cellNext i j else L.next i j,
    next := L.current }

/-- LifeAccel::getLiveCount (src/main.cpp lines 126-132): sum every
uint8_t value of the current buffer, row by row. -/
def LifeAccel.getLiveCount (L : LifeAccel) : Nat :=
  ((List.range L.rows).map fun i =>
    ((List.range L.cols).map fun j => L.current i j).sum).sum

/-- Both buffers contain only 0/1 values. -/
def LifeAccel.buffers01 (L : LifeAccel) : Prop := cells01 L.current ∧ cells01 L.next

/-! ## Helper lemmas -/

/-- A sum of guarded 0/1 values over a list equals the length of the
corresponding filter. -/
lemma sum_map_ite_eq_length_filter {α : Type} (l : List α) (p : α → Prop) [DecidablePred p]
    (v : α → Nat) (hv : ∀ d ∈ l, v d = 0 ∨ v d = 1) :
    (l.map fun d => if p d then v d else 0).sum =
      (l.filter fun d => decide (p d ∧ v d = 1)).length := by
  induction l with
  | nil => simp
  | cons d l ih =>
    have hd := hv d (List.mem_cons_self d l)
    have hl : ∀ e ∈ l, v e = 0 ∨ v e = 1 := fun e he => hv e (List.mem_cons_of_mem d he)
    simp only [List.map_cons, List.sum_cons, List.filter_cons, ih hl]
    by_cases hp : p d
    · rcases hd with h0 | h1
      · simp [hp, h0]
      · simp [hp, h1, Nat.add_comm]
    · simp [hp]

/-- Sum of a mapped List.range equals the Finset.range sum. -/
lemma list_range_map_sum (n : Nat) (f : Nat → Nat) :
    ((List.range n).map f).sum = ∑ i in Finset.range n, f i := by
  induction n with
  | zero => simp
  | succ n ih =>
    rw [List.range_succ, List.map_append, List.sum_append, Finset.sum_range_succ, ih]
    simp

/-- Every chunk stays inside the row range. -/
lemma chunkEnd_le (rows N t : Nat) (ht : t < N) : chunkEnd rows N t ≤ rows := by
  unfold chunkEnd chunkStart
  split
  · exact le_refl rows
  · calc t * (rows / N) + rows / N = (t + 1) * (rows / N) := by ring
    _ ≤ N * (rows / N) := Nat.mul_le_mul_right _ ht
    _ = rows / N * N := Nat.mul_comm _ _
    _ ≤ rows := Nat.div_mul_le_self rows N

/-- Every row index below rows is covered by some chunk. -/
lemma chunk_cover (rows N : Nat) (hN : 0 < N) (r : Nat) (hr : r < rows) :
    ∃ t, t < N ∧ chunkStart rows N t ≤ r ∧ r < chunkEnd rows N t := by
  by_cases hc : rows / N = 0
  · refine ⟨N - 1, by omega, ?_, ?_⟩
    · simp [chunkStart, hc]
    · simp [chunkEnd, hr]
  · have hcpos : 0 < rows / N := Nat.pos_of_ne_zero hc
    by_cases hlt : r / (rows / N) < N - 1
    · refine ⟨r / (rows / N), by omega, Nat.div_mul_le_self r _, ?_⟩
      have hne : r / (rows / N) ≠ N - 1 := by omega
      rw [chunkEnd, if_neg hne]
      have h1 := Nat.div_add_mod r (rows / N)
      have h2 := Nat.mod_lt r hcpos
      calc r = rows / N * (r / (rows / N)) + r % (rows / N) := h1.symm
      _ < rows / N * (r / (rows / N)) + rows / N := Nat.add_lt_add_left h2 _
      _ = r / (rows / N) * (rows / N) + rows / N := by ring
      _ = chunkStart rows N (r / (rows / N)) + rows / N := rfl
    · refine ⟨N - 1, by omega, ?_, ?_⟩
      · have hge : N - 1 ≤ r / (rows / N) := by omega
        calc chunkStart rows N (N - 1) = (N - 1) * (rows / N) := rfl
        _ ≤ r / (rows / N) * (rows / N) := Nat.mul_le_mul_right _ hge
        _ ≤ r := Nat.div_mul_le_self r _
      · rw [chunkEnd, if_pos rfl]
        exact hr
/-- Chunks with smaller index end before later chunks start. -/
lemma chunkEnd_le_chunkStart (rows N t1 t2 : Nat) (h12 : t1 < t2) (h2 : t2 < N) :
    chunkEnd rows N t1 ≤ chunkStart rows N t2 := by
  have ht1 : t1 ≠ N - 1 := by omega
  rw [chunkEnd, if_neg ht1]
  calc chunkStart rows N t1 + rows / N = (t1 + 1) * (rows / N) := by
        unfold chunkStart; ring
  _ ≤ t2 * (rows / N) := Nat.mul_le_mul_right _ (by omega)
  _ = chunkStart rows N t2 := rfl

/-- The effect of a list of chunk tasks, pointwise: a cell covered by some
chunk (and in column range) holds the newly computed state, any other
cell keeps its old value. -/
lemma runChunks_apply (L : LifeAccel) (ps : List (Nat × Nat)) (buf : Grid) (i j : Nat) :
    runChunks L ps buf i j =
      if (∃ p ∈ ps, p.1 ≤ i ∧ i < p.2) ∧ j < L.cols then L.cellNext i j else buf i j := by
  induction ps generalizing buf with
  | nil => simp [runChunks]
  | cons p ps ih =>
    have hstep : runChunks L (p :: ps) buf = runChunks L ps (runChunk L p buf) := rfl
    rw [hstep, ih]
    by_cases hj : j < L.cols
    · by_cases hps : ∃ q ∈ ps, q.1 ≤ i ∧ i < q.2
      · have h1 : ∃ q ∈ p :: ps, q.1 ≤ i ∧ i < q.2 := by
          obtain ⟨q, hq, h⟩ := hps
          exact ⟨q, List.mem_cons_of_mem p hq, h⟩
        rw [if_pos ⟨hps, hj⟩, if_pos ⟨h1, hj⟩]
      · rw [if_neg fun h => hps h.1]
        show (if p.1 ≤ i ∧ i < p.2 ∧ j < L.cols then L.cellNext i j else buf i j) = _
        by_cases hp : p.1 ≤ i ∧ i < p.2
        · have h1 : ∃ q ∈ p :: ps, q.1 ≤ i ∧ i < q.2 := ⟨p, List.mem_cons_self p ps, hp⟩
          rw [if_pos ⟨hp.1, hp.2, hj⟩, if_pos ⟨h1, hj⟩]
        · have h1 : ¬∃ q ∈ p :: ps, q.1 ≤ i ∧ i < q.2 := by
            rintro ⟨q, hq, h⟩
            rcases List.mem_cons.mp hq with rfl | hq'
            · exact hp h
            · exact hps ⟨q, hq', h⟩
          rw [if_neg fun h => hp ⟨h.1, h.2.1⟩, if_neg fun h => h1 h.1]
    · rw [if_neg fun h => hj h.2]
      show (if p.1 ≤ i ∧ i < p.2 ∧ j < L.cols then L.cellNext i j else buf i j) = _
      rw [if_neg fun h => hj h.2.2, if_neg fun h => hj h.2]

/-- The current buffer after updateParallel, pointwise: every in-range
cell holds the newly computed state, out-of-range positions keep the old
next-buffer values. -/
lemma updateParallel_current (L : LifeAccel) (N : Nat) (hN : 0 < N) (i j : Nat) :
    (L.updateParallel N).current i j =
      if i < L.rows ∧ j < L.cols then L.cellNext i j else L.next i j := by
  show runChunks L (chunkList L.rows N) L.next i j = _
  rw [runChunks_apply]
  by_cases h : i < L.rows ∧ j < L.cols
  · rw [if_pos h]
    obtain ⟨t, htN, hle, hlt⟩ := chunk_cover L.rows N hN i h.1
    have hmem : (chunkStart L.rows N t, chunkEnd L.rows N t) ∈ chunkList L.rows N :=
      List.mem_map.mpr ⟨t, List.mem_range.mpr htN, rfl⟩
    rw [if_pos ⟨⟨_, hmem, hle, hlt⟩, h.2⟩]
  · rw [if_neg h]
    refine if_neg ?_
    rintro ⟨⟨p, hp, hle, hlt⟩, hj⟩
    obtain ⟨t, htN, rfl⟩ := List.mem_map.mp hp
    exact h ⟨lt_of_lt_of_le hlt (chunkEnd_le L.rows N t (List.mem_range.mp htN)), hj⟩

/-- The per-cell update writes only 0 or 1. -/
lemma cellNext01 (L : LifeAccel) (i j : Nat) : L.cellNext i j = 0 ∨ L.cellNext i j = 1 := by
  unfold LifeAccel.cellNext
  split <;> split <;> simp

/-- The counter invariant of the pool transition system: tasks are
conserved, so submitted = queued + active + completed. -/
lemma pool_inv (st : PoolSt) (h : poolReachable poolInit st) :
    st.queued + st.active + st.counter = st.submitted := by
  induction h with
  | refl => rfl
  | tail _ hstep ih => cases hstep <;> simp_all <;> omega

/-! ## Claim theorems -/

/-- C1: for every grid state with 0/1 cells, after one step (updateParallel
with any positive worker count) the new current buffer holds, at every
in-range cell, 1 exactly when the cell was alive in the pre-step current
buffer with 2 or 3 live neighbors, or dead with exactly 3 live neighbors,
and 0 otherwise; the neighbor count is taken from the pre-step current
buffer. -/
theorem step_rule_C1 (L : LifeAccel) (N : Nat) (hN : 0 < N) (h01 : cells01 L.current)
    (i j : Nat) (hi : i < L.rows) (hj : j < L.cols) :
    (L.updateParallel N).current i j =
      if (L.current i j = 1 ∧ (L.countNeighbors i j = 2 ∨ L.countNeighbors i j = 3)) ∨
         (L.current i j = 0 ∧ L.countNeighbors i j = 3) then 1 else 0 := by
  rw [updateParallel_current L N hN, if_pos ⟨hi, hj⟩]
  unfold LifeAccel.cellNext
  rcases h01 i j with h0 | h1
  · simp [h0]
  · simp [h1]

/-- C1 witness: the all-dead 2 x 2 grid stepped with one worker. -/
theorem step_rule_C1_witness :
    ((LifeAccel.init 8 8 4).updateParallel 1).current 0 0 =
      if ((LifeAccel.init 8 8 4).current 0 0 = 1 ∧
            ((LifeAccel.init 8 8 4).countNeighbors 0 0 = 2 ∨
             (LifeAccel.init 8 8 4).countNeighbors 0 0 = 3)) ∨
         ((LifeAccel.init 8 8 4).current 0 0 = 0 ∧
            (LifeAccel.init 8 8 4).countNeighbors 0 0 = 3) then 1 else 0 :=
  step_rule_C1 _ 1 Nat.one_pos (fun _ _ => Or.inl rfl) 0 0 (by decide) (by decide)

/-- C2: for every in-bounds cell of a 0/1 grid, countNeighbors equals the
number of Moore offsets landing in bounds on a live cell (out-of-bounds
positions contribute nothing), and the count is at most 8. -/
theorem neighbors_C2 (L : LifeAccel) (x y : Nat) (h01 : cells01 L.current)
    (hx : x < L.rows) (hy : y < L.cols) :
    L.countNeighbors x y = (L.liveNeighborOffsets x y).length ∧
      L.countNeighbors x y ≤ 8 := by
  have he : L.countNeighbors x y = (L.liveNeighborOffsets x y).length := by
    unfold LifeAccel.countNeighbors LifeAccel.liveNeighborOffsets
    exact sum_map_ite_eq_length_filter moore _ _ (fun d _ => h01 _ _)
  refine ⟨he, he ▸ ?_⟩
  calc (L.liveNeighborOffsets x y).length ≤ moore.length :=
        List.length_filter_le _ _
  _ = 8 := rfl

/-- C2 witness: corner cell of the all-dead 2 x 2 grid. -/
theorem neighbors_C2_witness :
    (LifeAccel.init 8 8 4).countNeighbors 0 0 =
        ((LifeAccel.init 8 8 4).liveNeighborOffsets 0 0).length ∧
      (LifeAccel.init 8 8 4).countNeighbors 0 0 ≤ 8 :=
  neighbors_C2 _ 0 0 (fun _ _ => Or.inl rfl) (by decide) (by decide)

/-- C3: for every grid state and every positive chunk count N, one
updateParallel produces exactly the grid of the sequential whole-grid
update, hence also exactly the grid of the single-chunk run: the result
is bit-identical regardless of the parallelism degree. -/
theorem determinism_C3 (L : LifeAccel) (N : Nat) (hN : 0 < N) :
    L.updateParallel N = L.stepSpec ∧ L.updateParallel N = L.updateParallel 1 := by
  have hspec : ∀ M, 0 < M → L.updateParallel M = L.stepSpec := by
    intro M hM
    have hcur : (L.updateParallel M).current = (L.stepSpec).current :=
      funext fun i => funext fun j => updateParallel_current L M hM i j
    cases L with
    | mk w h c cols rows cur nxt =>
      simp only [LifeAccel.updateParallel, LifeAccel.stepSpec] at hcur ⊢
      rw [LifeAccel.mk.injEq]
      exact ⟨rfl, rfl, rfl, rfl, rfl, hcur, rfl⟩
  exact ⟨hspec N hN, (hspec N hN).trans (hspec 1 Nat.one_pos).symm⟩

/-- C3 witness: the all-dead 2 x 2 grid stepped with 4 chunks. -/
theorem determinism_C3_witness :
    (LifeAccel.init 8 8 4).updateParallel 4 = (LifeAccel.init 8 8 4).stepSpec ∧
      (LifeAccel.init 8 8 4).updateParallel 4 = (LifeAccel.init 8 8 4).updateParallel 1 :=
  determinism_C3 _ 4 (by decide)

/-- C4: for positive rows and positive chunk count N, the row ranges
[chunkStart, chunkEnd) are contiguous, pairwise non-overlapping, cover
every row index below rows, and cover it through exactly one chunk; the
last chunk absorbs the remainder. -/
theorem partition_C4 (rows N : Nat) (hrows : 0 < rows) (hN : 0 < N) :
    (∀ t, t + 1 < N → chunkEnd rows N t = chunkStart rows N (t + 1)) ∧
    (∀ t1 t2, t1 < t2 → t2 < N → chunkEnd rows N t1 ≤ chunkStart rows N t2) ∧
    (∀ r, r < rows → ∃ t, t < N ∧ chunkStart rows N t ≤ r ∧ r < chunkEnd rows N t) ∧
    (∀ r t1 t2, t1 < N → t2 < N →
      chunkStart rows N t1 ≤ r ∧ r < chunkEnd rows N t1 →
      chunkStart rows N t2 ≤ r ∧ r < chunkEnd rows N t2 → t1 = t2) := by
  refine ⟨?_, ?_, chunk_cover rows N hN, ?_⟩
  · intro t ht
    have hne : t ≠ N - 1 := by omega
    rw [chunkEnd, if_neg hne]
    unfold chunkStart
    ring
  · intro t1 t2 h12 h2
    exact chunkEnd_le_chunkStart rows N t1 t2 h12 h2
  · intro r t1 t2 h1 h2 hc1 hc2
    by_contra hne
    rcases Nat.lt_or_ge t1 t2 with hlt | hge
    · have := chunkEnd_le_chunkStart rows N t1 t2 hlt h2
      omega
    · have hlt : t2 < t1 := by omega
      have := chunkEnd_le_chunkStart rows N t2 t1 hlt h1
      omega

/-- C4 witness: 10 rows split into 4 chunks, where 4 does not divide 10. -/
theorem partition_C4_witness :
    (∀ t, t + 1 < 4 → chunkEnd 10 4 t = chunkStart 10 4 (t + 1)) ∧
    (∀ t1 t2, t1 < t2 → t2 < 4 → chunkEnd 10 4 t1 ≤ chunkStart 10 4 t2) ∧
    (∀ r, r < 10 → ∃ t, t < 4 ∧ chunkStart 10 4 t ≤ r ∧ r < chunkEnd 10 4 t) ∧
    (∀ r t1 t2, t1 < 4 → t2 < 4 →
      chunkStart 10 4 t1 ≤ r ∧ r < chunkEnd 10 4 t1 →
      chunkStart 10 4 t2 ≤ r ∧ r < chunkEnd 10 4 t2 → t1 = t2) :=
  partition_C4 10 4 (by decide) (by decide)

/-- C5 counterexample: randomize performs no range check — called with
fillProbability 3/2 on a freshly constructed grid it does modify the
grid (cell (0,0) flips from 0 to 1) instead of rejecting. -/
theorem randomize_reject_C5_cex :
    ((LifeAccel.init 8 8 4).randomize (fun _ _ => 0) (3 / 2)).current 0 0 = 1 ∧
      (LifeAccel.init 8 8 4).current 0 0 = 0 := by
  constructor
  · show (if 0 < 8 / 4 ∧ 0 < 8 / 4 then if (0 : ℚ) < 3 / 2 then 1 else 0 else 0) = 1
    norm_num
  · rfl

/-- C5 amended: randomize accepts every fillProbability without raising
and overwrites the grid; since the drawn samples lie in [0,1), any
fill at least 1 makes every in-range cell alive and any fill at most 0
makes every in-range cell dead — an effective clamp, not a rejection. -/
theorem randomize_clamp_C5 (L : LifeAccel) (samples : Nat → Nat → ℚ) (fill : ℚ)
    (hs : ∀ i j, 0 ≤ samples i j ∧ samples i j < 1) :
    (1 ≤ fill → ∀ i j, i < L.rows → j < L.cols →
      (L.randomize samples fill).current i j = 1) ∧
    (fill ≤ 0 → ∀ i j, i < L.rows → j < L.cols →
      (L.randomize samples fill).current i j = 0) := by
  constructor
  · intro hf i j hi hj
    show (if i < L.rows ∧ j < L.cols then if samples i j < fill then 1 else 0
          else L.current i j) = 1
    rw [if_pos ⟨hi, hj⟩, if_pos (lt_of_lt_of_le (hs i j).2 hf)]
  · intro hf i j hi hj
    show (if i < L.rows ∧ j < L.cols then if samples i j < fill then 1 else 0
          else L.current i j) = 0
    rw [if_pos ⟨hi, hj⟩, if_neg (not_lt.mpr (le_trans hf (hs i j).1))]

/-- C5 witness: fill = 2 turns cell (0,0) of the fresh grid alive. -/
theorem randomize_clamp_C5_witness :
    ((LifeAccel.init 8 8 4).randomize (fun _ _ => 1 / 2) 2).current 0 0 = 1 :=
  (randomize_clamp_C5 _ _ 2 (fun _ _ => ⟨by norm_num, by norm_num⟩)).1
    (by norm_num) 0 0 (by decide) (by decide)

/-- C6 counterexample: the ThreadPool constructor called with
workerCount 0 does not fail — it returns a fully constructed pool with
zero worker threads. -/
theorem pool_zero_C6_cex :
    (ThreadPool.mkPool 0).workers = 0 ∧ (ThreadPool.mkPool 0).stop = false :=
  ⟨rfl, rfl⟩

/-- C6 amended: the constructor performs no validation of workerCount:
for every n, including 0, it succeeds and yields a pool with exactly n
worker threads, an empty queue and a cleared stop flag. -/
theorem pool_ctor_C6 : ∀ n : Nat,
    (ThreadPool.mkPool n).workers = n ∧ (ThreadPool.mkPool n).tasks = [] ∧
      (ThreadPool.mkPool n).activeWorkers = 0 ∧ (ThreadPool.mkPool n).stop = false :=
  fun _ => ⟨rfl, rfl, rfl, rfl⟩

/-- C7 counterexample: a job sitting in the queue when the stop flag is
set is not abandoned — the worker loop pops and executes it. -/
theorem shutdown_abandon_C7_cex :
    workerLoopAfterStop [37] = [37] ∧ workerLoopAfterStop [37] ≠ [] :=
  ⟨rfl, by decide⟩

/-- C7 amended: after shutdown sets the stop flag, the workers drain the
queue: every task still queued at that moment is executed, in FIFO order,
and the loop exits only once the queue is empty — a graceful drain, not
a drop. -/
theorem shutdown_drain_C7 : ∀ q : List Job, workerLoopAfterStop q = q := by
  intro q
  induction q with
  | nil => rfl
  | cons j q ih => simpa [workerLoopAfterStop] using ih

/-- C8: the waitAll barrier is correct under sequentially consistent
interleaving: in every reachable pool state in which the wait predicate
holds (empty queue, no active worker), the completion counter equals the
number of tasks submitted so far — every task submitted before the call
has completed, for any number of tasks and over any number of rounds. -/
theorem quiescence_C8 (st : PoolSt) (h : poolReachable poolInit st)
    (hq : st.quiescent) : st.counter = st.submitted := by
  have hinv := pool_inv st h
  rcases hq with ⟨h1, h2⟩
  omega

/-- C8 witness: a two-task round, with the second task submitted while
the first is still executing, reaching quiescence with counter 2. -/
theorem quiescence_C8_witness : (⟨2, 0, 0, 2⟩ : PoolSt).counter = 2 := by
  have s1 : PoolStep ⟨0, 0, 0, 0⟩ ⟨1, 1, 0, 0⟩ := PoolStep.submit 0 0 0 0
  have s2 : PoolStep ⟨1, 1, 0, 0⟩ ⟨1, 0, 1, 0⟩ := PoolStep.start 1 0 0 0
  have s3 : PoolStep ⟨1, 0, 1, 0⟩ ⟨2, 1, 1, 0⟩ := PoolStep.submit 1 0 1 0
  have s4 : PoolStep ⟨2, 1, 1, 0⟩ ⟨2, 0, 2, 0⟩ := PoolStep.start 2 0 1 0
  have s5 : PoolStep ⟨2, 0, 2, 0⟩ ⟨2, 0, 1, 1⟩ := PoolStep.finish 2 0 1 0
  have s6 : PoolStep ⟨2, 0, 1, 1⟩ ⟨2, 0, 0, 2⟩ := PoolStep.finish 2 0 0 1
  have hreach : poolReachable poolInit ⟨2, 0, 0, 2⟩ :=
    Relation.ReflTransGen.head s1 (Relation.ReflTransGen.head s2
      (Relation.ReflTransGen.head s3 (Relation.ReflTransGen.head s4
        (Relation.ReflTransGen.head s5 (Relation.ReflTransGen.single s6)))))
  exact quiescence_C8 _ hreach ⟨rfl, rfl⟩

/-- C9: for every grid state with 0/1 cells — the all-dead and all-alive
grids included — getLiveCount returns exactly the number of in-range
cells of the current buffer whose value is 1. (The embedding of the
const method getLiveCount is a pure function of the engine state, so it
cannot modify the grid.) -/
theorem live_count_C9 (L : LifeAccel) (h01 : cells01 L.current) :
    L.getLiveCount =
      ((Finset.range L.rows ×ˢ Finset.range L.cols).filter
        fun p => L.current p.1 p.2 = 1).card := by
  unfold LifeAccel.getLiveCount
  rw [list_range_map_sum]
  have hrow : ∀ i, ((List.range L.cols).map fun j => L.current i j).sum =
      ∑ j in Finset.range L.cols, L.current i j := fun i => list_range_map_sum _ _
  calc ∑ i in Finset.range L.rows, ((List.range L.cols).map fun j => L.current i j).sum
      = ∑ i in Finset.range L.rows, ∑ j in Finset.range L.cols, L.current i j :=
        Finset.sum_congr rfl fun i _ => hrow i
  _ = ∑ i in Finset.range L.rows, ∑ j in Finset.range L.cols,
        (if L.current i j = 1 then 1 else 0) := by
        refine Finset.sum_congr rfl fun i _ => Finset.sum_congr rfl fun j _ => ?_
        rcases h01 i j with h | h <;> simp [h]
  _ = ∑ p in Finset.range L.rows ×ˢ Finset.range L.cols,
        (if L.current p.1 p.2 = 1 then 1 else 0) :=
        (Finset.sum_product (Finset.range L.rows) (Finset.range L.cols)
          (fun p => if L.current p.1 p.2 = 1 then 1 else 0)).symm
  _ = ((Finset.range L.rows ×ˢ Finset.range L.cols).filter
        fun p => L.current p.1 p.2 = 1).card := (Finset.card_filter _ _).symm

/-- C9 witness: the all-dead 2 x 2 grid. -/
theorem live_count_C9_witness :
    (LifeAccel.init 8 8 4).getLiveCount =
      ((Finset.range (LifeAccel.init 8 8 4).rows ×ˢ
          Finset.range (LifeAccel.init 8 8 4).cols).filter
        fun p => (LifeAccel.init 8 8 4).current p.1 p.2 = 1).card :=
  live_count_C9 _ (fun _ _ => Or.inl rfl)

/-- C10: every cell value stored in either buffer is always 0 or 1:
construction initializes both buffers to all 0, and randomize and
updateParallel preserve the 0/1 invariant of both buffers. -/
theorem invariants_C10 :
    (∀ w h c i j, (LifeAccel.init w h c).current i j = 0 ∧
        (LifeAccel.init w h c).next i j = 0) ∧
    (∀ (L : LifeAccel) (samples : Nat → Nat → ℚ) (fill : ℚ),
        L.buffers01 → (L.randomize samples fill).buffers01) ∧
    (∀ (L : LifeAccel) (N : Nat), L.buffers01 → (L.updateParallel N).buffers01) := by
  refine ⟨fun _ _ _ _ _ => ⟨rfl, rfl⟩, ?_, ?_⟩
  · rintro L samples fill ⟨hc, hn⟩
    refine ⟨fun i j => ?_, hn⟩
    show (if i < L.rows ∧ j < L.cols then if samples i j < fill then 1 else 0
            else L.current i j) = 0 ∨
         (if i < L.rows ∧ j < L.cols then if samples i j < fill then 1 else 0
            else L.current i j) = 1
    split
    · split
      · exact Or.inr rfl
      · exact Or.inl rfl
    · exact hc i j
  · rintro L N ⟨hc, hn⟩
    refine ⟨fun i j => ?_, hc⟩
    show runChunks L (chunkList L.rows N) L.next i j = 0 ∨
         runChunks L (chunkList L.rows N) L.next i j = 1
    rw [runChunks_apply]
    split
    · exact cellNext01 L i j
    · exact hn i j

/-- C10 witness: a fresh grid randomized and then stepped keeps 0/1
buffers. -/
theorem invariants_C10_witness :
    (((LifeAccel.init 8 8 4).randomize (fun _ _ => 1 / 2) (1 / 4)).updateParallel 4).buffers01 :=
  invariants_C10.2.2 _ 4 (invariants_C10.2.1 _ _ _
    ⟨fun _ _ => Or.inl rfl, fun _ _ => Or.inl rfl⟩)
